import Mathlib

/- Verification of the tree engine of react-virtual-tree (src/engine.ts).

   Shallow embedding conventions:
   - JS `Map` objects become association lists (`List (String × _)`) with
     JS `Map.set` replace-in-place semantics (`setAssoc`); the sparse
     `assignments` map becomes a function `String → Option Bool`.
   - JS `Set` objects become insertion-ordered duplicate-free lists with
     a membership-guarded `addToSet`.
   - The engine's recursive walks (base resolver, subtree clearing, the
     visible-leaf traversal, the flatten traversal, parent-chain walks)
     recurse on structures the source only guarantees to be acyclic through
     a caller obligation, so every such walk takes an explicit fuel
     argument; theorems carry a rank function that witnesses acyclicity
     and a fuel bound.
   - JS truthiness is modelled where the source relies on it: `while (p)`
     over a parent value treats `null`, `undefined` and the empty string
     as false, and `if (opts?.minSearchChars)` treats `0` as false.
   - The memoization caches of the source (stateCache, stateCacheFiltered,
     flatVisibleItems/indexById, allCheckedCache) cache values of pure
     functions; the model keeps the cache fields and the bookkeeping the
     mutating operations perform on them (clearing, tag resets) but
     computes the cached quantities purely, which is observationally
     equivalent because an entry never disagrees with the pure value.
   - The ghost field notifyCount counts synchronous observer dispatch
     rounds (`for (const ob of this.observers) ob()`), so "no subscriber
     was invoked" is "notifyCount is unchanged". -/

namespace RVT

/-- Tri-state checkbox value (src/constants.ts, consumed throughout engine.ts). -/
inductive CheckedState where
  | Checked
  | Unchecked
  | Indeterminate
deriving DecidableEq, Repr

/-- Row record emitted by the flatten traversal (engine.ts:8-13). -/
structure VisibleItem where
  id : String
  isExpanded : Bool
  isFolder : Bool
  level : Int
deriving DecidableEq, Repr

/-- Input record of the TreeDefinition mapping (src/types.ts): `children` and
`label` are the fields the engine reads (the `id` and `data` fields are never
read by the engine).  `label` is optional here because the constructor guards
with `(item as any).label ?? id`. -/
structure TreeItem where
  children : Option (List String) := none
  label : Option String := none
deriving DecidableEq, Repr

/-- Constructor options (engine.ts:61-65). -/
structure Opts where
  initialExpanded : Option (List String) := none
  minSearchChars : Option Int := none
  rootId : Option String := none
deriving DecidableEq, Repr

/-- Association-list lookup with first-match-wins, the model of `Map.get`. -/
def lookupS {α : Type} : List (String × α) → String → Option α
  | [], _ => none
  | (k, v) :: t, x => if x = k then some v else lookupS t x

/-- Model of `Map.set`: replace the first binding in place, else append. -/
def setAssoc {α : Type} : List (String × α) → String → α → List (String × α)
  | [], k, v => [(k, v)]
  | (k', v') :: t, k, v =>
    if k' = k then (k, v) :: t else (k', v') :: setAssoc t k v

/-- Model of `Map.has`. -/
def hasAssoc {α : Type} (m : List (String × α)) (k : String) : Bool :=
  m.any (fun p => p.1 = k)

/-- Model of `Set.add`: append unless already present. -/
def addToSet (s : List String) (x : String) : List String :=
  if x ∈ s then s else s ++ [x]

/-- Model of `new Set(list)`: fold the elements through `addToSet`. -/
def listToSet (l : List String) : List String :=
  l.foldl addToSet []

/-- The engine's `setsEqual` (engine.ts:577-581): size equality plus a
one-sided membership scan. -/
def setsEqual (a b : List String) : Bool :=
  decide (a.length = b.length) && a.all (fun v => decide (v ∈ b))

/-- Concatenation of the images of a list-valued function, used to embed the
source's depth-first child loops. -/
def catMap {α β : Type} (f : α → List β) : List α → List β
  | [] => []
  | x :: t => f x ++ catMap f t

/-- Combining diacritical mark, the range the source strips (engine.ts:106). -/
def isCombiningMark (c : Char) : Bool :=
  decide (0x300 ≤ c.toNat) && decide (c.toNat ≤ 0x36F)

/-- Model of `Engine.normalize` (engine.ts:103-108).  The source first applies
the platform Unicode NFD table (`s.normalize("NFD")`), which is outside this
repository; the model covers the source's own two steps on the given code
points: removing combining marks U+0300-U+036F and lowercasing. -/
def normalize (s : String) : String :=
  String.mk ((s.data.filter (fun c => !isCombiningMark c)).map Char.toLower)

/-- Substring containment on character lists, the model of
`String.prototype.includes` as used at engine.ts:346. -/
def containsSub : List Char → List Char → Bool
  | [], pat => pat.isEmpty
  | c :: t, pat => pat.isPrefixOf (c :: t) || containsSub t pat

/-- Engine state (the mutable fields of the Engine class, engine.ts:24-51),
plus the ghost observer-dispatch counter notifyCount. -/
structure Engine where
  rootId : String
  childrenMap : List (String × List String)
  labelMap : List (String × String)
  folderSet : List String
  leafIds : List String
  parentMap : List (String × Option String)
  normalizedLeafLabel : List (String × String)
  assignments : String → Option Bool
  expanded : List String
  minSearchChars : Int
  searchQuery : String
  normalizedQuery : String
  searchActive : Bool
  searchEpoch : Nat
  selectionVersion : Nat
  expandVersion : Nat
  version : Nat
  visibleSet : List String
  visibleChildrenMap : List (String × List String)
  stateCache : List (String × CheckedState)
  stateCacheFiltered : List (String × CheckedState)
  flatCacheVersion : Int
  allCheckedCacheVersion : Int
  allCheckedCache : List String
  notifyCount : Nat

/-- The constructor (engine.ts:59-97).  `data` models `Object.entries(data)`,
whose keys are unique by construction of JavaScript objects, so the Map-building
loops are written as direct comprehensions; `parentMap` keeps the explicit
last-seen-wins fold because a child ID may be referenced by several entries.
`if (opts?.minSearchChars)` is a JS truthiness test, so the option value 0 is
ignored (falls back to the default 3) while any other value, including
negative ones, is taken as-is. -/
def mkEngine (data : List (String × TreeItem)) (opts : Option Opts) : Engine :=
  let rootId := (opts.bind Opts.rootId).getD "__root__"
  let minChars : Int :=
    match opts.bind Opts.minSearchChars with
    | some n => if n = 0 then 3 else n
    | none => 3
  let childrenOf : String × TreeItem → List String := fun p => p.2.children.getD []
  let childrenMap := data.map (fun p => (p.1, childrenOf p))
  let labelMap := data.map (fun p => (p.1, p.2.label.getD p.1))
  let folderSet := (data.filter (fun p => !(childrenOf p).isEmpty)).map Prod.fst
  let leafIds := (data.filter (fun p => (childrenOf p).isEmpty)).map Prod.fst
  let parentMap0 :=
    data.foldl (fun m p => (childrenOf p).foldl (fun m c => setAssoc m c (some p.1)) m) []
  let parentMap :=
    if hasAssoc parentMap0 rootId then parentMap0 else setAssoc parentMap0 rootId none
  let expanded0 := ((opts.bind Opts.initialExpanded).getD []).foldl addToSet []
  let expanded := if rootId ∈ folderSet then addToSet expanded0 rootId else expanded0
  let nll := leafIds.map (fun lid => (lid, normalize ((lookupS labelMap lid).getD lid)))
  { rootId := rootId, childrenMap := childrenMap, labelMap := labelMap,
    folderSet := folderSet, leafIds := leafIds, parentMap := parentMap,
    normalizedLeafLabel := nll, assignments := fun _ => none, expanded := expanded,
    minSearchChars := minChars, searchQuery := "", normalizedQuery := "",
    searchActive := false, searchEpoch := 0, selectionVersion := 0,
    expandVersion := 0, version := 0, visibleSet := [], visibleChildrenMap := [],
    stateCache := [], stateCacheFiltered := [], flatCacheVersion := -1,
    allCheckedCacheVersion := -1, allCheckedCache := [], notifyCount := 0 }

/-- The unrestricted children source, `this.childrenMap.get(id) || []`. -/
def children (e : Engine) (id : String) : List String :=
  (lookupS e.childrenMap id).getD []

/-- The search-restricted children source, `this.visibleChildrenMap.get(id) || []`. -/
def visibleChildren (e : Engine) (id : String) : List String :=
  (lookupS e.visibleChildrenMap id).getD []

/-- Point update of the assignments map, `this.assignments.set(k, v)`. -/
def setA (m : String → Option Bool) (k : String) (v : Bool) : String → Option Bool :=
  fun x => if x = k then some v else m x

/-- Point deletion from the assignments map, `this.assignments.delete(k)`. -/
def delA (m : String → Option Bool) (k : String) : String → Option Bool :=
  fun x => if x = k then none else m x

/-- `findNearestAssignment` (engine.ts:456-463): walk up the parent chain
until an explicit assignment is found.  Both the loop guard `while (current)`
and the step `this.parentMap.get(current) || null` are JS truthiness tests, so
the walk stops on a missing entry, on the root's `null` sentinel, and on the
empty-string ID.  Fuel bounds the chain length. -/
def findNearestAssignment (e : Engine) : Nat → String → Option Bool
  | 0, _ => none
  | pf + 1, cur =>
    if cur = "" then none
    else
      match e.assignments cur with
      | some b => some b
      | none =>
        match lookupS e.parentMap cur with
        | some (some p) => findNearestAssignment e pf p
        | _ => none

/-- The leaf branch of both resolvers (engine.ts:479-485, 524-530):
`forced === true ? Checked : Unchecked`. -/
def leafResolve (e : Engine) (pf : Nat) (id : String) : CheckedState :=
  if findNearestAssignment e pf id = some true then
    CheckedState.Checked
  else CheckedState.Unchecked

/-- The folder-summary loop of both resolvers (engine.ts:488-502): return
Indeterminate at the first indeterminate child, otherwise count checked
children (accumulator k) against the total n. -/
def childSummary : List CheckedState → Nat → Nat → CheckedState
  | [], k, n =>
    if k = 0 then CheckedState.Unchecked
    else if k = n then CheckedState.Checked
    else CheckedState.Indeterminate
  | s :: rest, k, n =>
    if s = CheckedState.Indeterminate then CheckedState.Indeterminate
    else childSummary rest (if s = CheckedState.Checked then k + 1 else k) n

/-- `getStateBase` (engine.ts:473-505): resolve over the full ChildrenMap;
a node with no children is treated as a leaf.  The source memoizes the result
in stateCache; the model computes the pure value.  The children of an
Indeterminate-producing prefix are mapped eagerly here, which is sound because
resolution is pure. -/
def getStateBase (e : Engine) (pf : Nat) : Nat → String → CheckedState
  | 0, _ => CheckedState.Unchecked
  | fuel + 1, id =>
    let cs := children e id
    if cs.isEmpty then leafResolve e pf id
    else childSummary (cs.map (getStateBase e pf fuel)) 0 cs.length

/-- `getStateFiltered` (engine.ts:515-550): structurally identical to
`getStateBase` but reads VisibleChildrenMap while search is active. -/
def getStateFiltered (e : Engine) (pf : Nat) : Nat → String → CheckedState
  | 0, _ => CheckedState.Unchecked
  | fuel + 1, id =>
    let cs := if e.searchActive then visibleChildren e id else children e id
    if cs.isEmpty then leafResolve e pf id
    else childSummary (cs.map (getStateFiltered e pf fuel)) 0 cs.length

/-- `getViewState` (engine.ts:193-197): dispatch on the search flag. -/
def getViewState (e : Engine) (pf fuel : Nat) (id : String) : CheckedState :=
  if e.searchActive then getStateFiltered e pf fuel id else getStateBase e pf fuel id

/-- The childless descendants of a node along the unrestricted ChildrenMap,
the nodes whose state `getStateBase` resolves through `findNearestAssignment`
(glossary Leaf: no children in the canonical topology). -/
def leafDescendants (e : Engine) : Nat → String → List String
  | 0, _ => []
  | fuel + 1, id =>
    let cs := children e id
    if cs.isEmpty then [id]
    else catMap (leafDescendants e fuel) cs

/-- `notify` (engine.ts:557-567): bump selectionVersion unless silent, bump
version, clear both resolver caches, invalidate the flatten and all-checked
caches, and dispatch to every observer (modelled by notifyCount). -/
def notify (e : Engine) (silent : Bool) : Engine :=
  { e with
    selectionVersion := if silent then e.selectionVersion else e.selectionVersion + 1,
    version := e.version + 1,
    stateCache := [], stateCacheFiltered := [],
    flatCacheVersion := -1, allCheckedCacheVersion := -1,
    notifyCount := e.notifyCount + 1 }

/-- `bumpNoRecompute` (engine.ts:430-435): layout-only bump plus dispatch. -/
def bumpNoRecompute (e : Engine) : Engine :=
  { e with
    version := e.version + 1, expandVersion := e.expandVersion + 1,
    flatCacheVersion := -1, notifyCount := e.notifyCount + 1 }

/-- `clearSubtreeAssignments` (engine.ts:441-447): for each child of `id`
(unrestricted ChildrenMap), delete its assignment and recurse. -/
def clearSubtreeAssignments (e : Engine) :
    Nat → String → (String → Option Bool) → (String → Option Bool)
  | 0, _, m => m
  | fuel + 1, id, m =>
    (children e id).foldl (fun m c => clearSubtreeAssignments e fuel c (delA m c)) m

/-- The proper descendants of a node along the unrestricted ChildrenMap, the
exact set of IDs whose assignment `clearSubtreeAssignments` deletes. -/
def subtreeDescendants (e : Engine) : Nat → String → List String
  | 0, _ => []
  | fuel + 1, id =>
    catMap (fun c => c :: subtreeDescendants e fuel c) (children e id)

/-- `toggleFull` (engine.ts:591-595): write the assignment at `id`, clear the
whole subtree beneath it, notify. -/
def toggleFull (e : Engine) (fuel : Nat) (id : String) (checked : Bool) : Engine :=
  notify
    { e with assignments :=
        clearSubtreeAssignments e fuel id (setA e.assignments id checked) }
    false

/-- The visible leaves collected by `forEachVisibleLeafUnder`
(engine.ts:606-620): traverse VisibleChildrenMap; a node with no visible
children receives the callback iff it is not a structural folder.  The source
uses an explicit stack; the model recurses depth-first, which visits the same
node set (the callback writes a single value, so visit order is immaterial). -/
def visibleLeavesUnder (e : Engine) : Nat → String → List String
  | 0, _ => []
  | fuel + 1, id =>
    let cs := visibleChildren e id
    if cs.isEmpty then (if id ∈ e.folderSet then [] else [id])
    else catMap (visibleLeavesUnder e fuel) cs

/-- Every node reachable from a start node through VisibleChildrenMap edges;
this is the spec-side ("reachable from id through VisibleChildrenMap") notion
that the traversal above filters to non-folders. -/
def visibleReachable (e : Engine) : Nat → String → List String
  | 0, _ => []
  | fuel + 1, id => id :: catMap (visibleReachable e fuel) (visibleChildren e id)

/-- `toggleVisibleOnly` (engine.ts:605-632): a leaf gets its assignment set
directly; a folder gets every visible leaf beneath it assigned individually;
either way a non-silent notify follows. -/
def toggleVisibleOnly (e : Engine) (fuel : Nat) (id : String) (checked : Bool) : Engine :=
  if id ∉ e.folderSet then
    notify { e with assignments := setA e.assignments id checked } false
  else
    notify
      { e with assignments :=
          (visibleLeavesUnder e fuel id).foldl (fun m l => setA m l checked) e.assignments }
      false

/-- `toggle` (engine.ts:406-412): dispatch on the search flag. -/
def toggle (e : Engine) (fuel : Nat) (id : String) (checked : Bool) : Engine :=
  if e.searchActive then toggleVisibleOnly e fuel id checked
  else toggleFull e fuel id checked

/-- `getAllChecked` (engine.ts:129-145): the ChildrenMap keys, in insertion
order, that are not folders and whose base state is Checked.  The source
memoizes behind allCheckedCacheVersion; the model computes the pure value. -/
def getAllChecked (e : Engine) (pf fuel : Nat) : List String :=
  (e.childrenMap.map Prod.fst).filter
    (fun id => !decide (id ∈ e.folderSet)
      && decide (getStateBase e pf fuel id = CheckedState.Checked))

/-- `setChecked` (engine.ts:284-294): filter folders out of the input, compare
as sets against the current all-checked list, and either return unchanged or
rebuild the assignments map from scratch. -/
def setChecked (e : Engine) (pf fuel : Nat) (input : List String) (silent : Bool) : Engine :=
  let n := listToSet (input.filter (fun id => !decide (id ∈ e.folderSet)))
  let o := listToSet (getAllChecked e pf fuel)
  if setsEqual n o then e
  else
    notify
      { e with assignments := n.foldl (fun m id => setA m id true) (fun _ => none) }
      silent

/-- `getExpanded` (engine.ts:153-155). -/
def getExpanded (e : Engine) : List String :=
  e.expanded

/-- `setExpanded` (engine.ts:302-308): set-equality no-op check, wholesale
replacement, root re-added when it is a folder, layout-only bump. -/
def setExpanded (e : Engine) (ids : List String) : Engine :=
  let next := listToSet ids
  if setsEqual next e.expanded then e
  else
    bumpNoRecompute
      { e with expanded :=
          if e.rootId ∈ e.folderSet then addToSet next e.rootId else next }

/-- `toggleExpanded` (engine.ts:421-428): no-op on non-folders; flip
membership; re-add the root if it was the one removed; layout-only bump. -/
def toggleExpanded (e : Engine) (id : String) : Engine :=
  if id ∉ e.folderSet then e
  else
    let ex := if id ∈ e.expanded then e.expanded.erase id else addToSet e.expanded id
    let ex := if id = e.rootId ∧ e.rootId ∉ ex then addToSet ex e.rootId else ex
    bumpNoRecompute { e with expanded := ex }

/-- `collapseAll` (engine.ts:114-118): clear, re-add root when it is a folder. -/
def collapseAll (e : Engine) : Engine :=
  bumpNoRecompute
    { e with expanded := if e.rootId ∈ e.folderSet then addToSet [] e.rootId else [] }

/-- `expandAll` (engine.ts:124-127): add every folder. -/
def expandAll (e : Engine) : Engine :=
  bumpNoRecompute { e with expanded := e.folderSet.foldl addToSet e.expanded }

/-- The ancestor walk of `setSearchQuery` (engine.ts:352-356):
`let p = parentMap.get(leaf); while (p) { visibleSet.add(p); p = parentMap.get(p); }`.
The guard is a JS truthiness test, so the walk stops on a missing entry, on
the root's `null` sentinel, and on an empty-string parent ID. -/
def ancestorWalk (e : Engine) : Nat → String → List String
  | 0, _ => []
  | fuel + 1, id =>
    match lookupS e.parentMap id with
    | some (some p) => if p = "" then [] else p :: ancestorWalk e fuel p
    | _ => []

/-- Modelled from the spec ("mark it and every ancestor up to root as
visible"): the full parent chain of a node, with no empty-string truncation.
Used only on the claim side of C4, to compare with `ancestorWalk`. -/
def specAncestors (e : Engine) : Nat → String → List String
  | 0, _ => []
  | fuel + 1, id =>
    match lookupS e.parentMap id with
    | some (some p) => p :: specAncestors e fuel p
    | _ => []

/-- The leaf substring scan of `setSearchQuery` (engine.ts:343-348): the
leaves, in leafIds order, whose pre-normalized label contains the normalized
query. -/
def searchMatches (e : Engine) (q : String) : List String :=
  e.leafIds.filter
    (fun id => containsSub ((lookupS e.normalizedLeafLabel id).getD "").data q.data)

/-- The VisibleSet built by `setSearchQuery` (engine.ts:350-358): every match,
every node its ancestor walk reaches, and finally the root. -/
def searchVisibleSet (e : Engine) (fuel : Nat) (q : String) : List String :=
  addToSet
    ((searchMatches e q).foldl
      (fun acc leaf => (leaf :: ancestorWalk e fuel leaf).foldl addToSet acc) [])
    e.rootId

/-- The VisibleChildrenMap built by `setSearchQuery` (engine.ts:360-364): for
each visible node in insertion order, its original children restricted to the
visible set, omitting the entry when the restriction is empty. -/
def searchVCM (e : Engine) (vis2 : List String) : List (String × List String) :=
  vis2.filterMap (fun id =>
    if ((children e id).filter (fun c => decide (c ∈ vis2))).isEmpty then none
    else some (id, (children e id).filter (fun c => decide (c ∈ vis2))))

/-- The forced collapse-then-expand of `setSearchQuery` (engine.ts:366-369):
clear Expanded, re-add the root, then add every visible folder. -/
def searchExpanded (e : Engine) (vis2 : List String) : List String :=
  vis2.foldl (fun ex id => if id ∈ e.folderSet then addToSet ex id else ex)
    (addToSet [] e.rootId)

/-- `setSearchQuery` (engine.ts:324-383).  An unchanged normalized query only
re-stores the raw string.  Otherwise: recompute the activation flag, clear the
visibility structures and the filtered resolver cache, rebuild them when
activating (leaf substring scan, ancestor marking, restricted children map,
forced collapse-then-expand), reset expansion to the bare root when
deactivating from an active state, and always bump
searchEpoch/version/expandVersion, invalidate the flatten cache, and notify. -/
def setSearchQuery (e : Engine) (fuel : Nat) (query : String) : Engine :=
  let raw := query
  let q := normalize raw
  if q = e.normalizedQuery then { e with searchQuery := raw }
  else
    let wasActive := e.searchActive
    let active := decide (e.minSearchChars ≤ (q.length : Int))
    let e1 :=
      { e with
        searchQuery := raw, normalizedQuery := q, searchActive := active,
        visibleSet := [], visibleChildrenMap := [], stateCacheFiltered := [] }
    let e2 :=
      if active then
        let vis2 := searchVisibleSet e fuel q
        { e1 with
          visibleSet := vis2, visibleChildrenMap := searchVCM e vis2,
          expanded := searchExpanded e vis2 }
      else if wasActive then { e1 with expanded := addToSet [] e.rootId }
      else e1
    { e2 with
      searchEpoch := e2.searchEpoch + 1, version := e2.version + 1,
      expandVersion := e2.expandVersion + 1, flatCacheVersion := -1,
      notifyCount := e2.notifyCount + 1 }

/-- `setMinSearchChars` (engine.ts:316-322): floor the argument at 1, no-op on
equality, otherwise store and re-apply the current query. -/
def setMinSearchChars (e : Engine) (fuel : Nat) (n : Int) : Engine :=
  let n := if n < 1 then 1 else n
  if e.minSearchChars = n then e
  else setSearchQuery { e with minSearchChars := n } fuel e.searchQuery

/-- The `visit` traversal of `getVisibleItems` (engine.ts:214-241): the root
emits no row and recurses into its children at level 0; every other node emits
a row and recurses only when it is an expanded effective folder. -/
def visitRows (e : Engine) : Nat → String → Int → List VisibleItem
  | 0, _, _ => []
  | fuel + 1, id, level =>
    let c := if e.searchActive then visibleChildren e id else children e id
    if id = e.rootId then catMap (fun ch => visitRows e fuel ch 0) c
    else
      let isFolder := decide (id ∈ e.folderSet)
      let eff := if e.searchActive then !c.isEmpty else isFolder
      let isExp := eff && decide (id ∈ e.expanded)
      let row : VisibleItem := { id := id, isExpanded := isExp, isFolder := eff, level := level }
      if eff && isExp then row :: catMap (fun ch => visitRows e fuel ch (level + 1)) c
      else [row]

/-- `getVisibleItems` (engine.ts:206-247): the flattened row list; the source
memoizes it behind a version/searchEpoch key, the model computes it purely. -/
def getVisibleItems (e : Engine) (fuel : Nat) : List VisibleItem :=
  visitRows e fuel e.rootId (-1)

/-- The `indexById` side effect of the flatten traversal: each emitted row
stores its position (`indexById.set(id, out.length)` before the push), so the
map is a left fold of position writes over the row list. -/
def buildIdxAux : List VisibleItem → Nat → List (String × Nat) → List (String × Nat)
  | [], _, m => m
  | r :: rs, i, m => buildIdxAux rs (i + 1) (setAssoc m r.id i)

/-- `indexOf` (engine.ts:255-258): position of a row in the flattened list,
`-1` when absent. -/
def indexOf (e : Engine) (fuel : Nat) (id : String) : Int :=
  match lookupS (buildIdxAux (getVisibleItems e fuel) 0 []) id with
  | some i => (i : Int)
  | none => -1

/-- Sample forest used by the concrete witnesses: a root with a folder `p`
holding leaves `a` and `c`, plus a top-level leaf `b`. -/
def sampleData : List (String × TreeItem) :=
  [("__root__", { children := some ["p", "b"] }),
   ("p", { children := some ["a", "c"], label := some "Folder P" }),
   ("a", { label := some "Alpha" }),
   ("c", { label := some "Charlie" }),
   ("b", { label := some "Beta" })]

/-- Engine over the sample forest, search inactive. -/
def Etest : Engine := mkEngine sampleData none

/-- Sample engine after searching for "alp": leaf `a` and folder `p` visible. -/
def EtestAlp : Engine := setSearchQuery Etest 6 "alp"

/-- Sample engine after searching for "beta": only leaf `b` visible, folder `p`
has no visible descendants. -/
def EtestBeta : Engine := setSearchQuery Etest 6 "beta"

/-- A concrete rank function witnessing acyclicity of the sample forest. -/
def rankT : String → Nat :=
  fun s => if s = "__root__" then 2 else if s = "p" then 1 else 0

/-- Sample engine with mixed assignments: leaf `a` checked, leaf `c` not. -/
def EtestMixed : Engine := toggle Etest 5 "a" true

/-- Forest whose root has no children, so the constructor never expands it. -/
def EchildlessRoot : Engine := mkEngine [("__root__", ({} : TreeItem))] none

/-- Forest containing a folder whose ID is the empty string, with a matching
leaf beneath it. -/
def EemptyId : Engine :=
  mkEngine
    [("__root__", { children := some [""] }),
     ("", { children := some ["a"] }),
     ("a", { label := some "abc" })]
    none

/-- Engine constructed with the negative minSearchChars option -1. -/
def EnegMin : Engine :=
  mkEngine
    [("__root__", { children := some ["a"] }), ("a", { label := some "x" })]
    (some { minSearchChars := some (-1) })

theorem lookupS_mem {α : Type} (m : List (String × α)) (k : String) (v : α)
    (h : lookupS m k = some v) : (k, v) ∈ m := by
  induction m with
  | nil => simp [lookupS] at h
  | cons p t ih =>
    obtain ⟨k', v'⟩ := p
    rw [lookupS] at h
    by_cases hk : k = k'
    · subst hk
      simp at h
      subst h
      exact List.mem_cons_self _ _
    · simp [hk] at h
      exact List.mem_cons_of_mem _ (ih h)

theorem lookupS_setAssoc {α : Type} (m : List (String × α)) (k : String) (v : α)
    (x : String) :
    lookupS (setAssoc m k v) x = if x = k then some v else lookupS m x := by
  induction m with
  | nil => by_cases hx : x = k <;> simp [setAssoc, lookupS, hx]
  | cons p t ih =>
    obtain ⟨k', v'⟩ := p
    rw [setAssoc]
    by_cases hk : k' = k
    · subst hk
      by_cases hx : x = k' <;> simp [lookupS, hx]
    · rw [if_neg hk]
      by_cases hx : x = k'
      · subst hx
        simp [lookupS, hk]
      · simp [lookupS, hx, ih]

theorem mem_addToSet (s : List String) (a x : String) :
    x ∈ addToSet s a ↔ x ∈ s ∨ x = a := by
  unfold addToSet
  by_cases h : a ∈ s
  · simp only [if_pos h]
    constructor
    · exact Or.inl
    · rintro (hx | rfl)
      · exact hx
      · exact h
  · simp [if_neg h]

theorem nodup_addToSet (s : List String) (a : String) (h : s.Nodup) :
    (addToSet s a).Nodup := by
  unfold addToSet
  by_cases ha : a ∈ s
  · simpa [ha]
  · simp [ha, List.nodup_append, h]

theorem mem_foldl_addToSet (l : List String) (acc : List String) (x : String) :
    x ∈ l.foldl addToSet acc ↔ x ∈ acc ∨ x ∈ l := by
  induction l generalizing acc with
  | nil => simp
  | cons a t ih =>
    rw [List.foldl_cons, ih, mem_addToSet]
    simp only [List.mem_cons]
    tauto

theorem nodup_foldl_addToSet (l : List String) (acc : List String) (h : acc.Nodup) :
    (l.foldl addToSet acc).Nodup := by
  induction l generalizing acc with
  | nil => simpa
  | cons a t ih => exact ih _ (nodup_addToSet _ _ h)

theorem mem_listToSet (l : List String) (x : String) :
    x ∈ listToSet l ↔ x ∈ l := by
  unfold listToSet
  rw [mem_foldl_addToSet]
  simp

theorem nodup_listToSet (l : List String) : (listToSet l).Nodup :=
  nodup_foldl_addToSet l [] List.nodup_nil

theorem foldl_addToSet_of_disjoint (l : List String) (acc : List String)
    (hnd : l.Nodup) (hdis : ∀ x ∈ l, x ∉ acc) :
    l.foldl addToSet acc = acc ++ l := by
  induction l generalizing acc with
  | nil => simp
  | cons a t ih =>
    rw [List.foldl_cons]
    have ha : a ∉ acc := hdis a (List.mem_cons_self _ _)
    rw [addToSet, if_neg ha]
    rw [List.nodup_cons] at hnd
    rw [ih (acc ++ [a]) hnd.2]
    · simp
    · intro x hx
      simp only [List.mem_append, List.mem_singleton]
      rintro (hacc | rfl)
      · exact hdis x (List.mem_cons_of_mem _ hx) hacc
      · exact hnd.1 hx

theorem listToSet_eq_self (l : List String) (h : l.Nodup) : listToSet l = l := by
  unfold listToSet
  rw [foldl_addToSet_of_disjoint l [] h (by simp)]
  simp

theorem setsEqual_self (l : List String) : setsEqual l l = true := by
  simp [setsEqual, List.all_eq_true]

theorem mem_catMap {α β : Type} (f : α → List β) (l : List α) (b : β) :
    b ∈ catMap f l ↔ ∃ a ∈ l, b ∈ f a := by
  induction l with
  | nil => simp [catMap]
  | cons x t ih =>
    rw [catMap, List.mem_append, ih]
    simp

theorem setA_apply (m : String → Option Bool) (k : String) (v : Bool) (x : String) :
    setA m k v x = if x = k then some v else m x := rfl

theorem foldl_setA_apply (l : List String) (m : String → Option Bool) (v : Bool)
    (x : String) :
    l.foldl (fun m id => setA m id v) m x = if x ∈ l then some v else m x := by
  induction l generalizing m with
  | nil => simp
  | cons a t ih =>
    rw [List.foldl_cons, ih]
    by_cases hx : x ∈ t
    · simp [hx]
    · by_cases hxa : x = a <;> simp [hx, hxa, setA]

/-- C5: feeding the engine its own outputs back is a complete no-op:
`setChecked (getAllChecked())` and `setExpanded (getExpanded())` return the
state unchanged, so no version counter moves, no cache is invalidated (cache
validity is governed by those counters and the cache fields are part of the
state equality), and no subscribed observer is invoked (notifyCount is a state
field).  The Nodup hypothesis is the JS `Set` representation invariant of the
expanded field. -/
theorem C5_controlled_idempotence (e : Engine) (pf fuel : Nat)
    (hnd : e.expanded.Nodup) :
    setChecked e pf fuel (getAllChecked e pf fuel) false = e
    ∧ setExpanded e (getExpanded e) = e := by
  constructor
  · have hfix : (getAllChecked e pf fuel).filter
        (fun id => !decide (id ∈ e.folderSet)) = getAllChecked e pf fuel := by
      apply List.filter_eq_self.mpr
      intro a ha
      unfold getAllChecked at ha
      rw [List.mem_filter] at ha
      have h2 := ha.2
      simp only [Bool.and_eq_true] at h2
      exact h2.1
    simp only [setChecked]
    rw [hfix, setsEqual_self]
    simp
  · simp only [setExpanded, getExpanded]
    rw [listToSet_eq_self _ hnd, setsEqual_self]
    simp

/-- Witness for C5 at the concrete sample engine. -/
theorem C5_witness :
    Etest.expanded.Nodup
    ∧ (setChecked Etest 5 5 (getAllChecked Etest 5 5) false = Etest
       ∧ setExpanded Etest (getExpanded Etest) = Etest) :=
  ⟨by decide, C5_controlled_idempotence Etest 5 5 (by decide)⟩

/-- C9: when `setChecked` is not a no-op it rebuilds the assignments map from
scratch: afterwards the map holds exactly `id -> true` for each non-folder
member of the input and nothing else; folders in the input are dropped and all
previous assignments (including folder-level ones) are gone. -/
theorem C9_setChecked_rebuild (e : Engine) (pf fuel : Nat) (ids : List String)
    (hne : setsEqual (listToSet (ids.filter (fun id => !decide (id ∈ e.folderSet))))
           (listToSet (getAllChecked e pf fuel)) = false) :
    ∀ x, (setChecked e pf fuel ids false).assignments x
      = if x ∈ ids ∧ x ∉ e.folderSet then some true else none := by
  intro x
  simp only [setChecked]
  rw [hne]
  simp only [Bool.false_eq_true, if_false]
  show (listToSet (ids.filter fun id => !decide (id ∈ e.folderSet))).foldl
      (fun m id => setA m id true) (fun _ => none) x = _
  rw [foldl_setA_apply]
  by_cases h1 : x ∈ ids <;> by_cases h2 : x ∈ e.folderSet <;>
    simp [mem_listToSet, List.mem_filter, h1, h2]

/-- Witness for C9: checking leaf `a` from an empty selection, with the folder
`p` in the input being ignored. -/
theorem C9_witness :
    setsEqual (listToSet ((["p", "a"]).filter
        (fun id => !decide (id ∈ Etest.folderSet))))
      (listToSet (getAllChecked Etest 5 5)) = false
    ∧ ∀ x, (setChecked Etest 5 5 ["p", "a"] false).assignments x
        = if x ∈ ["p", "a"] ∧ x ∉ Etest.folderSet then some true else none :=
  ⟨by decide, C9_setChecked_rebuild Etest 5 5 ["p", "a"] (by decide)⟩

/-- C10: with search active, toggling a structural folder that has no visible
leaf beneath it writes no assignment at all, yet still runs the full
non-silent notify: selectionVersion and version are bumped, both resolver
caches are cleared, the flatten and all-checked caches are invalidated, and
every subscribed observer is invoked (notifyCount increments). -/
theorem C10_effective_leaf_folder_toggle (e : Engine) (fuel : Nat) (f : String)
    (c : Bool) (hf : f ∈ e.folderSet) (hsa : e.searchActive = true)
    (hnl : visibleLeavesUnder e fuel f = []) :
    toggle e fuel f c =
      { e with
        selectionVersion := e.selectionVersion + 1, version := e.version + 1,
        stateCache := [], stateCacheFiltered := [],
        flatCacheVersion := -1, allCheckedCacheVersion := -1,
        notifyCount := e.notifyCount + 1 } := by
  have hdisp : toggle e fuel f c = toggleVisibleOnly e fuel f c := by
    unfold toggle
    rw [hsa]
    simp
  rw [hdisp]
  unfold toggleVisibleOnly
  rw [if_neg (by simp [hf])]
  rw [hnl]
  simp [notify]

theorem clearSubtree_foldl_aux (e : Engine) (fuel : Nat)
    (ih : ∀ (c : String) (m : String → Option Bool) (x : String),
      clearSubtreeAssignments e fuel c m x
        = if x ∈ subtreeDescendants e fuel c then none else m x) :
    ∀ (cs : List String) (m : String → Option Bool) (x : String),
      cs.foldl (fun m c => clearSubtreeAssignments e fuel c (delA m c)) m x
        = if x ∈ catMap (fun c => c :: subtreeDescendants e fuel c) cs then none
          else m x := by
  intro cs
  induction cs with
  | nil => intro m x; simp [catMap]
  | cons c t iht =>
    intro m x
    rw [List.foldl_cons, iht, catMap]
    rw [ih c]
    by_cases h1 : x ∈ catMap (fun c => c :: subtreeDescendants e fuel c) t <;>
    by_cases h2 : x ∈ subtreeDescendants e fuel c <;>
    by_cases h3 : x = c <;>
    simp [h1, h2, h3, delA]

theorem clearSubtree_apply (e : Engine) :
    ∀ (fuel : Nat) (id : String) (m : String → Option Bool) (x : String),
      clearSubtreeAssignments e fuel id m x
        = if x ∈ subtreeDescendants e fuel id then none else m x := by
  intro fuel
  induction fuel with
  | zero =>
    intro id m x
    simp [clearSubtreeAssignments, subtreeDescendants]
  | succ fuel ih =>
    intro id m x
    rw [clearSubtreeAssignments, subtreeDescendants]
    exact clearSubtree_foldl_aux e fuel ih (children e id) m x

theorem children_rank (e : Engine) (rank : String → Nat)
    (hrank : ∀ pr ∈ e.childrenMap, ∀ ch ∈ pr.2, rank ch < rank pr.1) :
    ∀ p c, c ∈ children e p → rank c < rank p := by
  intro p c hc
  unfold children at hc
  cases hl : lookupS e.childrenMap p with
  | none => rw [hl] at hc; simp at hc
  | some l =>
    rw [hl] at hc
    simp at hc
    exact hrank (p, l) (lookupS_mem _ _ _ hl) c hc

theorem subtreeDescendants_rank (e : Engine) (rank : String → Nat)
    (hrank : ∀ pr ∈ e.childrenMap, ∀ ch ∈ pr.2, rank ch < rank pr.1) :
    ∀ (fuel : Nat) (id x : String),
      x ∈ subtreeDescendants e fuel id → rank x < rank id := by
  intro fuel
  induction fuel with
  | zero => intro id x hx; simp [subtreeDescendants] at hx
  | succ fuel ih =>
    intro id x hx
    rw [subtreeDescendants] at hx
    rw [mem_catMap] at hx
    obtain ⟨c, hc, hx⟩ := hx
    rcases List.mem_cons.mp hx with rfl | hx'
    · exact children_rank e rank hrank id x hc
    · exact lt_trans (ih c x hx') (children_rank e rank hrank id c hc)

/-- C2: with search inactive, `toggle(id, checked)` runs `toggleFull`: the
assignment map afterwards holds `id -> checked`, holds no entry for any proper
descendant of `id` along the unrestricted ChildrenMap (whatever the subtree
held before), and is untouched outside `id`'s subtree.  The rank hypothesis is
the caller's valid-forest obligation (acyclicity). -/
theorem C2_toggleFull_consolidation (e : Engine) (rank : String → Nat)
    (fuel : Nat) (id : String) (c : Bool)
    (hrank : ∀ pr ∈ e.childrenMap, ∀ ch ∈ pr.2, rank ch < rank pr.1)
    (hsa : e.searchActive = false) :
    (toggle e fuel id c).assignments id = some c
    ∧ (∀ d ∈ subtreeDescendants e fuel id, (toggle e fuel id c).assignments d = none)
    ∧ ∀ x, x ≠ id → x ∉ subtreeDescendants e fuel id →
        (toggle e fuel id c).assignments x = e.assignments x := by
  have hdisp : toggle e fuel id c = toggleFull e fuel id c := by
    unfold toggle
    rw [hsa]
    simp
  have hassign : ∀ x, (toggleFull e fuel id c).assignments x
      = if x ∈ subtreeDescendants e fuel id then none
        else if x = id then some c else e.assignments x := by
    intro x
    show clearSubtreeAssignments e fuel id (setA e.assignments id c) x = _
    rw [clearSubtree_apply]
    rfl
  have hnotmem : id ∉ subtreeDescendants e fuel id := by
    intro h
    exact lt_irrefl _ (subtreeDescendants_rank e rank hrank fuel id id h)
  refine ⟨?_, ?_, ?_⟩
  · rw [hdisp, hassign]
    simp [hnotmem]
  · intro d hd
    rw [hdisp, hassign]
    simp [hd]
  · intro x hx1 hx2
    rw [hdisp, hassign]
    simp [hx1, hx2]

/-- Witness for C2: checking folder `p` consolidates, clearing leaves `a`, `c`. -/
theorem C2_witness :
    (∀ pr ∈ Etest.childrenMap, ∀ ch ∈ pr.2, rankT ch < rankT pr.1)
    ∧ Etest.searchActive = false
    ∧ ((toggle Etest 5 "p" true).assignments "p" = some true
       ∧ (∀ d ∈ subtreeDescendants Etest 5 "p",
            (toggle Etest 5 "p" true).assignments d = none)
       ∧ ∀ x, x ≠ "p" → x ∉ subtreeDescendants Etest 5 "p" →
           (toggle Etest 5 "p" true).assignments x = Etest.assignments x) :=
  ⟨by decide, by decide,
   C2_toggleFull_consolidation Etest rankT 5 "p" true (by decide) (by decide)⟩

theorem visibleLeavesUnder_not_folder (e : Engine) :
    ∀ (fuel : Nat) (id x : String),
      x ∈ visibleLeavesUnder e fuel id → x ∉ e.folderSet := by
  intro fuel
  induction fuel with
  | zero => intro id x hx; simp [visibleLeavesUnder] at hx
  | succ fuel ih =>
    intro id x hx
    simp only [visibleLeavesUnder] at hx
    by_cases hcs : (visibleChildren e id).isEmpty
    · rw [if_pos hcs] at hx
      by_cases hid : id ∈ e.folderSet
      · simp [hid] at hx
      · simp [hid] at hx
        subst hx
        exact hid
    · rw [if_neg hcs] at hx
      rw [mem_catMap] at hx
      obtain ⟨a, _, hx⟩ := hx
      exact ih a x hx

theorem visibleChildren_of_not_folder (e : Engine)
    (hleaf : ∀ pr ∈ e.visibleChildrenMap, pr.1 ∈ e.folderSet) :
    ∀ x, x ∉ e.folderSet → visibleChildren e x = [] := by
  intro x hx
  unfold visibleChildren
  cases hl : lookupS e.visibleChildrenMap x with
  | none => rfl
  | some l => exact absurd (hleaf (x, l) (lookupS_mem _ _ _ hl)) hx

theorem visibleLeavesUnder_eq_reachable (e : Engine)
    (hleaf : ∀ pr ∈ e.visibleChildrenMap, pr.1 ∈ e.folderSet) :
    ∀ (fuel : Nat) (id x : String),
      x ∈ visibleLeavesUnder e fuel id
        ↔ x ∈ visibleReachable e fuel id ∧ x ∉ e.folderSet := by
  intro fuel
  induction fuel with
  | zero => intro id x; simp [visibleLeavesUnder, visibleReachable]
  | succ fuel ih =>
    intro id x
    simp only [visibleLeavesUnder, visibleReachable]
    by_cases hcs : (visibleChildren e id).isEmpty
    · rw [if_pos hcs]
      have hnil : visibleChildren e id = [] := by
        cases h : visibleChildren e id with
        | nil => rfl
        | cons a t => rw [h] at hcs; simp at hcs
      rw [hnil]
      by_cases hid : id ∈ e.folderSet
      · simp only [hid, if_pos, if_true]
        constructor
        · intro hx
          simp at hx
        · rintro ⟨hx, hnf⟩
          simp [catMap] at hx
          subst hx
          exact absurd hid hnf
      · simp only [hid, if_neg, if_false]
        simp [catMap, hid]
        intro hx
        subst hx
        exact hid
    · rw [if_neg hcs]
      have hidf : id ∈ e.folderSet := by
        by_contra h
        rw [visibleChildren_of_not_folder e hleaf id h] at hcs
        simp at hcs
      rw [mem_catMap]
      constructor
      · rintro ⟨c, hc, hx⟩
        have := (ih c x).mp hx
        refine ⟨List.mem_cons_of_mem _ ?_, this.2⟩
        rw [mem_catMap]
        exact ⟨c, hc, this.1⟩
      · rintro ⟨hx, hnf⟩
        rcases List.mem_cons.mp hx with rfl | hx'
        · exact absurd hidf hnf
        · rw [mem_catMap] at hx'
          obtain ⟨c, hc, hx'⟩ := hx'
          exact ⟨c, hc, (ih c x).mpr ⟨hx', hnf⟩⟩

/-- C3: with search active, toggling a structural folder sets the assignment
of exactly the visible structural leaves reachable from it through
VisibleChildrenMap, and touches nothing else: the folder's own entry and every
assignment outside the collected leaf set (in particular every hidden leaf)
are exactly as before.  The hleaf hypothesis (every VisibleChildrenMap entry
is keyed by a structural folder) is the shape `setSearchQuery` always
produces, since a structural leaf has no children to restrict. -/
theorem C3_toggleVisibleOnly_frame (e : Engine) (fuel : Nat) (f : String) (c : Bool)
    (hf : f ∈ e.folderSet) (hsa : e.searchActive = true)
    (hleaf : ∀ pr ∈ e.visibleChildrenMap, pr.1 ∈ e.folderSet) :
    (∀ x, x ∈ visibleLeavesUnder e fuel f
       ↔ x ∈ visibleReachable e fuel f ∧ x ∉ e.folderSet)
    ∧ (∀ l ∈ visibleLeavesUnder e fuel f, (toggle e fuel f c).assignments l = some c)
    ∧ (∀ x, x ∉ visibleLeavesUnder e fuel f →
        (toggle e fuel f c).assignments x = e.assignments x)
    ∧ (toggle e fuel f c).assignments f = e.assignments f := by
  have hdisp : toggle e fuel f c = toggleVisibleOnly e fuel f c := by
    unfold toggle
    rw [hsa]
    simp
  have hassign : ∀ x, (toggleVisibleOnly e fuel f c).assignments x
      = if x ∈ visibleLeavesUnder e fuel f then some c else e.assignments x := by
    intro x
    unfold toggleVisibleOnly
    rw [if_neg (by simp [hf])]
    show (visibleLeavesUnder e fuel f).foldl (fun m l => setA m l c) e.assignments x = _
    exact foldl_setA_apply _ _ _ _
  refine ⟨fun x => visibleLeavesUnder_eq_reachable e hleaf fuel f x, ?_, ?_, ?_⟩
  · intro l hl
    rw [hdisp, hassign]
    simp [hl]
  · intro x hx
    rw [hdisp, hassign]
    simp [hx]
  · have hfn : f ∉ visibleLeavesUnder e fuel f := fun h =>
      visibleLeavesUnder_not_folder e fuel f f h hf
    rw [hdisp, hassign]
    simp [hfn]

/-- Witness for C3: with "alp" active, toggling folder `p` checks only the
visible leaf `a`, leaving the hidden leaf `c` and `p` itself untouched. -/
theorem C3_witness :
    "p" ∈ EtestAlp.folderSet
    ∧ EtestAlp.searchActive = true
    ∧ (∀ pr ∈ EtestAlp.visibleChildrenMap, pr.1 ∈ EtestAlp.folderSet)
    ∧ ((∀ x, x ∈ visibleLeavesUnder EtestAlp 6 "p"
          ↔ x ∈ visibleReachable EtestAlp 6 "p" ∧ x ∉ EtestAlp.folderSet)
       ∧ (∀ l ∈ visibleLeavesUnder EtestAlp 6 "p",
            (toggle EtestAlp 6 "p" true).assignments l = some true)
       ∧ (∀ x, x ∉ visibleLeavesUnder EtestAlp 6 "p" →
            (toggle EtestAlp 6 "p" true).assignments x = EtestAlp.assignments x)
       ∧ (toggle EtestAlp 6 "p" true).assignments "p" = EtestAlp.assignments "p") :=
  ⟨by decide, by decide, by decide,
   C3_toggleVisibleOnly_frame EtestAlp 6 "p" true (by decide) (by decide) (by decide)⟩

theorem foldl_guard_addToSet_mem (s l acc : List String) (x : String)
    (hx : x ∈ acc) :
    x ∈ l.foldl (fun a i => if i ∈ s then addToSet a i else a) acc := by
  induction l generalizing acc with
  | nil => exact hx
  | cons b t ih =>
    rw [List.foldl_cons]
    apply ih
    by_cases hb : b ∈ s
    · rw [if_pos hb, mem_addToSet]
      exact Or.inl hx
    · rwa [if_neg hb]

theorem mem_foldl_guard_addToSet (s l acc : List String) (x : String) :
    x ∈ l.foldl (fun a i => if i ∈ s then addToSet a i else a) acc
      ↔ x ∈ acc ∨ (x ∈ l ∧ x ∈ s) := by
  induction l generalizing acc with
  | nil => simp
  | cons b t ih =>
    rw [List.foldl_cons, ih]
    by_cases hb : b ∈ s
    · rw [if_pos hb, mem_addToSet]
      simp only [List.mem_cons]
      constructor
      · rintro ((h | rfl) | h)
        · exact Or.inl h
        · exact Or.inr ⟨Or.inl rfl, hb⟩
        · exact Or.inr ⟨Or.inr h.1, h.2⟩
      · rintro (h | ⟨(rfl | h1), h2⟩)
        · exact Or.inl (Or.inl h)
        · exact Or.inl (Or.inr rfl)
        · exact Or.inr ⟨h1, h2⟩
    · rw [if_neg hb]
      simp only [List.mem_cons]
      constructor
      · rintro (h | h)
        · exact Or.inl h
        · exact Or.inr ⟨Or.inr h.1, h.2⟩
      · rintro (h | ⟨(rfl | h1), h2⟩)
        · exact Or.inl h
        · exact absurd h2 hb
        · exact Or.inr ⟨h1, h2⟩

theorem setSearchQuery_root_expanded (e : Engine) (fuel : Nat) (q : String)
    (hmem : e.rootId ∈ e.expanded) :
    e.rootId ∈ (setSearchQuery e fuel q).expanded := by
  unfold setSearchQuery
  by_cases h0 : normalize q = e.normalizedQuery
  · rw [if_pos h0]
    exact hmem
  · rw [if_neg h0]
    simp only []
    split_ifs with h1 h2
    · apply foldl_guard_addToSet_mem
      rw [mem_addToSet]
      exact Or.inr rfl
    · rw [mem_addToSet]
      exact Or.inr rfl
    · exact hmem

/-- Amended C6: provided the root ID is a structural folder (it has at least
one child), it belongs to Expanded right after construction and stays a member
across toggleExpanded, collapseAll, expandAll, setExpanded and setSearchQuery.
The guard is necessary: construction, collapseAll and setExpanded only re-add
the root under `folderSet.has(rootId)` (engine.ts:90, 116, 306). -/
theorem C6_root_always_expanded (data : List (String × TreeItem)) (opts : Option Opts)
    (e : Engine) (id : String) (ids : List String) (fuel : Nat) (q : String)
    (hcons : (mkEngine data opts).rootId ∈ (mkEngine data opts).folderSet)
    (hroot : e.rootId ∈ e.folderSet) (hmem : e.rootId ∈ e.expanded) :
    (mkEngine data opts).rootId ∈ (mkEngine data opts).expanded
    ∧ e.rootId ∈ (toggleExpanded e id).expanded
    ∧ e.rootId ∈ (collapseAll e).expanded
    ∧ e.rootId ∈ (expandAll e).expanded
    ∧ e.rootId ∈ (setExpanded e ids).expanded
    ∧ e.rootId ∈ (setSearchQuery e fuel q).expanded := by
  refine ⟨?_, ?_, ?_, ?_, ?_, ?_⟩
  · simp only [mkEngine] at hcons ⊢
    rw [if_pos hcons, mem_addToSet]
    exact Or.inr rfl
  · unfold toggleExpanded
    by_cases hid : id ∉ e.folderSet
    · rw [if_pos hid]
      exact hmem
    · rw [if_neg hid]
      simp only []
      by_cases hc : id = e.rootId
          ∧ e.rootId ∉ (if id ∈ e.expanded then e.expanded.erase id
                        else addToSet e.expanded id)
      · rw [if_pos hc]
        show e.rootId ∈ addToSet _ e.rootId
        rw [mem_addToSet]
        exact Or.inr rfl
      · rw [if_neg hc]
        show e.rootId ∈ (if id ∈ e.expanded then e.expanded.erase id
                         else addToSet e.expanded id)
        by_cases hir : id = e.rootId
        · by_contra h
          exact hc ⟨hir, h⟩
        · by_cases hh : id ∈ e.expanded
          · rw [if_pos hh]
            exact (List.mem_erase_of_ne (fun h => hir h.symm)).mpr hmem
          · rw [if_neg hh, mem_addToSet]
            exact Or.inl hmem
  · unfold collapseAll
    show e.rootId ∈ (if e.rootId ∈ e.folderSet then addToSet [] e.rootId else [])
    rw [if_pos hroot, mem_addToSet]
    exact Or.inr rfl
  · unfold expandAll
    show e.rootId ∈ e.folderSet.foldl addToSet e.expanded
    rw [mem_foldl_addToSet]
    exact Or.inl hmem
  · unfold setExpanded
    by_cases hs : setsEqual (listToSet ids) e.expanded
    · rw [if_pos hs]
      exact hmem
    · rw [if_neg hs]
      show e.rootId ∈ (if e.rootId ∈ e.folderSet then addToSet (listToSet ids) e.rootId
                       else listToSet ids)
      rw [if_pos hroot, mem_addToSet]
      exact Or.inr rfl
  · exact setSearchQuery_root_expanded e fuel q hmem

/-- Witness for the amended C6 at the concrete sample engine. -/
theorem C6_witness :
    (mkEngine sampleData none).rootId ∈ (mkEngine sampleData none).folderSet
    ∧ Etest.rootId ∈ Etest.folderSet
    ∧ Etest.rootId ∈ Etest.expanded
    ∧ ((mkEngine sampleData none).rootId ∈ (mkEngine sampleData none).expanded
       ∧ Etest.rootId ∈ (toggleExpanded Etest "p").expanded
       ∧ Etest.rootId ∈ (collapseAll Etest).expanded
       ∧ Etest.rootId ∈ (expandAll Etest).expanded
       ∧ Etest.rootId ∈ (setExpanded Etest ["p"]).expanded
       ∧ Etest.rootId ∈ (setSearchQuery Etest 6 "alp").expanded) :=
  ⟨by decide, by decide, by decide,
   C6_root_always_expanded sampleData none Etest "p" ["p"] 6 "alp"
     (by decide) (by decide) (by decide)⟩

/-- Refutation of C6 as stated: over the input tree whose root has no
children, the root is not a member of Expanded after construction, because the
constructor only adds it when it is a folder (engine.ts:90). -/
theorem C6_counterexample :
    EchildlessRoot.rootId ∉ EchildlessRoot.expanded := by decide

theorem setSearchQuery_minSearchChars (e : Engine) (fuel : Nat) (q : String) :
    (setSearchQuery e fuel q).minSearchChars = e.minSearchChars := by
  unfold setSearchQuery
  by_cases h0 : normalize q = e.normalizedQuery
  · rw [if_pos h0]
  · rw [if_neg h0]
    simp only []
    split_ifs <;> rfl

/-- Amended C8: the threshold defaults to 3; `setMinSearchChars` floors its
argument at 1 (so the threshold it installs is always at least 1) and, when
the floored value differs from the current threshold, re-evaluates the current
query through the setSearchQuery activation path.  The constructor, however,
applies a nonzero `minSearchChars` option as-is with no floor, so construction
can install a threshold below 1 (see the counterexample). -/
theorem C8_min_search_chars (data : List (String × TreeItem)) (e : Engine)
    (fuel : Nat) (n : Int)
    (hch : (if n < 1 then 1 else n) ≠ e.minSearchChars) :
    (mkEngine data none).minSearchChars = 3
    ∧ (setMinSearchChars e fuel n).minSearchChars = (if n < 1 then 1 else n)
    ∧ 1 ≤ (setMinSearchChars e fuel n).minSearchChars
    ∧ setMinSearchChars e fuel n
        = setSearchQuery { e with minSearchChars := if n < 1 then 1 else n }
            fuel e.searchQuery := by
  have hstep : setMinSearchChars e fuel n
      = setSearchQuery { e with minSearchChars := if n < 1 then 1 else n }
          fuel e.searchQuery := by
    unfold setMinSearchChars
    rw [if_neg (fun h => hch h.symm)]
  have hval : (setMinSearchChars e fuel n).minSearchChars = (if n < 1 then 1 else n) := by
    rw [hstep, setSearchQuery_minSearchChars]
  refine ⟨rfl, hval, ?_, hstep⟩
  rw [hval]
  by_cases h : n < 1
  · rw [if_pos h]
  · rw [if_neg h]
    omega

/-- Witness for the amended C8: lowering the threshold to -5 installs the
floor 1 and re-runs the current query. -/
theorem C8_witness :
    (if (-5 : Int) < 1 then 1 else (-5 : Int)) ≠ Etest.minSearchChars
    ∧ ((mkEngine sampleData none).minSearchChars = 3
       ∧ (setMinSearchChars Etest 6 (-5)).minSearchChars
           = (if (-5 : Int) < 1 then 1 else (-5 : Int))
       ∧ 1 ≤ (setMinSearchChars Etest 6 (-5)).minSearchChars
       ∧ setMinSearchChars Etest 6 (-5)
           = setSearchQuery { Etest with minSearchChars := if (-5 : Int) < 1 then 1 else (-5 : Int) }
               6 Etest.searchQuery) :=
  ⟨by decide, C8_min_search_chars sampleData Etest 6 (-5) (by decide)⟩

/-- Refutation of C8 as stated: constructing with the option value -1 installs
-1 as the effective threshold (no floor), and that threshold is really used by
activation: after a later transition to the empty query, search stays active
because 0 >= -1. -/
theorem C8_counterexample :
    EnegMin.minSearchChars = -1
    ∧ EnegMin.minSearchChars < 1
    ∧ (setSearchQuery (setSearchQuery EnegMin 5 "zzz") 5 "").searchActive = true :=
  ⟨rfl, by decide, by decide⟩

theorem childSummary_eq (l : List CheckedState) (k n : Nat) :
    childSummary l k n =
      if CheckedState.Indeterminate ∈ l then CheckedState.Indeterminate
      else if k + l.countP (fun s => s == CheckedState.Checked) = 0 then
        CheckedState.Unchecked
      else if k + l.countP (fun s => s == CheckedState.Checked) = n then
        CheckedState.Checked
      else CheckedState.Indeterminate := by
  induction l generalizing k with
  | nil => simp [childSummary]
  | cons s t ih =>
    rw [childSummary]
    cases s with
    | Indeterminate => simp
    | Checked =>
      rw [if_neg (by decide), if_pos rfl, ih]
      by_cases hm : CheckedState.Indeterminate ∈ t
      · have hm2 : CheckedState.Indeterminate ∈ (CheckedState.Checked :: t) :=
          List.mem_cons_of_mem _ hm
        rw [if_pos hm, if_pos hm2]
      · have hm2 : CheckedState.Indeterminate ∉ (CheckedState.Checked :: t) := by
          simp [hm]
        rw [if_neg hm, if_neg hm2, List.countP_cons]
        simp only [beq_self_eq_true, if_true]
        have e0 : k + (List.countP (fun s => s == CheckedState.Checked) t + 1)
            = k + 1 + List.countP (fun s => s == CheckedState.Checked) t := by omega
        rw [e0]
    | Unchecked =>
      rw [if_neg (by decide), if_neg (by decide), ih]
      by_cases hm : CheckedState.Indeterminate ∈ t
      · have hm2 : CheckedState.Indeterminate ∈ (CheckedState.Unchecked :: t) :=
          List.mem_cons_of_mem _ hm
        rw [if_pos hm, if_pos hm2]
      · have hm2 : CheckedState.Indeterminate ∉ (CheckedState.Unchecked :: t) := by
          simp [hm]
        rw [if_neg hm, if_neg hm2, List.countP_cons]
        rw [if_neg (show ¬((CheckedState.Unchecked == CheckedState.Checked) = true)
          from by decide)]
        rw [Nat.add_zero]

theorem getStateBase_char (e : Engine) (rank : String → Nat) (pf : Nat)
    (hrank : ∀ pr ∈ e.childrenMap, ∀ ch ∈ pr.2, rank ch < rank pr.1) :
    ∀ (fuel : Nat) (id : String), rank id < fuel →
      (getStateBase e pf fuel id = CheckedState.Checked
        ↔ ∀ l ∈ leafDescendants e fuel id, leafResolve e pf l = CheckedState.Checked)
      ∧ (getStateBase e pf fuel id = CheckedState.Unchecked
        ↔ ∀ l ∈ leafDescendants e fuel id, leafResolve e pf l = CheckedState.Unchecked) := by
  intro fuel
  induction fuel with
  | zero => intro id hid; omega
  | succ fuel ih =>
    intro id hid
    simp only [getStateBase, leafDescendants]
    by_cases hcs : (children e id).isEmpty
    · rw [if_pos hcs, if_pos hcs]
      simp
    · rw [if_neg hcs, if_neg hcs]
      have hchildlt : ∀ c ∈ children e id, rank c < fuel := by
        intro c hc
        have := children_rank e rank hrank id c hc
        omega
      have hlenpos : 0 < (children e id).length := by
        cases h : children e id with
        | nil => rw [h] at hcs; simp at hcs
        | cons a t => simp [h]
      rw [childSummary_eq]
      have hmapIff : (CheckedState.Indeterminate ∈ (children e id).map (getStateBase e pf fuel))
          ↔ ∃ c ∈ children e id, getStateBase e pf fuel c = CheckedState.Indeterminate := by
        simp [List.mem_map]
      have hcnt_len :
          ((children e id).map (getStateBase e pf fuel)).countP (fun s => s == CheckedState.Checked)
            = (children e id).length
          ↔ ∀ c ∈ children e id, getStateBase e pf fuel c = CheckedState.Checked := by
        rw [show (children e id).length
            = ((children e id).map (getStateBase e pf fuel)).length from
            (List.length_map _ _).symm]
        rw [List.countP_eq_length]
        simp [List.mem_map]
      have hcnt_zero :
          ((children e id).map (getStateBase e pf fuel)).countP (fun s => s == CheckedState.Checked) = 0
          ↔ ∀ c ∈ children e id, getStateBase e pf fuel c ≠ CheckedState.Checked := by
        rw [List.countP_eq_zero]
        simp [List.mem_map]
      have hallC : (∀ l ∈ catMap (leafDescendants e fuel) (children e id),
            leafResolve e pf l = CheckedState.Checked)
          ↔ ∀ c ∈ children e id, ∀ l ∈ leafDescendants e fuel c,
              leafResolve e pf l = CheckedState.Checked := by
        constructor
        · intro h c hc l hl
          exact h l ((mem_catMap _ _ _).mpr ⟨c, hc, hl⟩)
        · intro h l hl
          obtain ⟨c, hc, hl⟩ := (mem_catMap _ _ _).mp hl
          exact h c hc l hl
      have hallU : (∀ l ∈ catMap (leafDescendants e fuel) (children e id),
            leafResolve e pf l = CheckedState.Unchecked)
          ↔ ∀ c ∈ children e id, ∀ l ∈ leafDescendants e fuel c,
              leafResolve e pf l = CheckedState.Unchecked := by
        constructor
        · intro h c hc l hl
          exact h l ((mem_catMap _ _ _).mpr ⟨c, hc, hl⟩)
        · intro h l hl
          obtain ⟨c, hc, hl⟩ := (mem_catMap _ _ _).mp hl
          exact h c hc l hl
      have hChC : (∀ c ∈ children e id, getStateBase e pf fuel c = CheckedState.Checked)
          ↔ ∀ c ∈ children e id, ∀ l ∈ leafDescendants e fuel c,
              leafResolve e pf l = CheckedState.Checked := by
        constructor
        · intro h c hc
          exact ((ih c (hchildlt c hc)).1).mp (h c hc)
        · intro h c hc
          exact ((ih c (hchildlt c hc)).1).mpr (h c hc)
      have hChU : (∀ c ∈ children e id, getStateBase e pf fuel c = CheckedState.Unchecked)
          ↔ ∀ c ∈ children e id, ∀ l ∈ leafDescendants e fuel c,
              leafResolve e pf l = CheckedState.Unchecked := by
        constructor
        · intro h c hc
          exact ((ih c (hchildlt c hc)).2).mp (h c hc)
        · intro h c hc
          exact ((ih c (hchildlt c hc)).2).mpr (h c hc)
      constructor
      · constructor
        · intro hC
          by_cases h1 : CheckedState.Indeterminate
              ∈ (children e id).map (getStateBase e pf fuel)
          · rw [if_pos h1] at hC
            cases hC
          · rw [if_neg h1] at hC
            by_cases h2 : 0 + ((children e id).map (getStateBase e pf fuel)).countP
                (fun s => s == CheckedState.Checked) = 0
            · rw [if_pos h2] at hC
              cases hC
            · rw [if_neg h2] at hC
              by_cases h3 : 0 + ((children e id).map (getStateBase e pf fuel)).countP
                  (fun s => s == CheckedState.Checked) = (children e id).length
              · have hcnt : ((children e id).map (getStateBase e pf fuel)).countP
                    (fun s => s == CheckedState.Checked) = (children e id).length := by
                  omega
                exact hallC.mpr (hChC.mp (hcnt_len.mp hcnt))
              · rw [if_neg h3] at hC
                cases hC
        · intro hall
          have hcc := hChC.mpr (hallC.mp hall)
          have hcnt := hcnt_len.mpr hcc
          have hnoI : CheckedState.Indeterminate
              ∉ (children e id).map (getStateBase e pf fuel) := by
            intro hmem
            obtain ⟨c, hc, hI⟩ := hmapIff.mp hmem
            rw [hcc c hc] at hI
            cases hI
          rw [if_neg hnoI, if_neg (by omega), if_pos (by omega)]
      · constructor
        · intro hU
          by_cases h1 : CheckedState.Indeterminate
              ∈ (children e id).map (getStateBase e pf fuel)
          · rw [if_pos h1] at hU
            cases hU
          · rw [if_neg h1] at hU
            by_cases h2 : 0 + ((children e id).map (getStateBase e pf fuel)).countP
                (fun s => s == CheckedState.Checked) = 0
            · apply hallU.mpr
              apply hChU.mp
              intro c hc
              have hz : ((children e id).map (getStateBase e pf fuel)).countP
                  (fun s => s == CheckedState.Checked) = 0 := by
                omega
              have hnC : getStateBase e pf fuel c ≠ CheckedState.Checked :=
                hcnt_zero.mp hz c hc
              have hnI : getStateBase e pf fuel c ≠ CheckedState.Indeterminate := by
                intro h
                exact h1 (hmapIff.mpr ⟨c, hc, h⟩)
              cases hst : getStateBase e pf fuel c with
              | Checked => exact absurd hst hnC
              | Unchecked => rfl
              | Indeterminate => exact absurd hst hnI
            · rw [if_neg h2] at hU
              by_cases h3 : 0 + ((children e id).map (getStateBase e pf fuel)).countP
                  (fun s => s == CheckedState.Checked) = (children e id).length
              · rw [if_pos h3] at hU
                cases hU
              · rw [if_neg h3] at hU
                cases hU
        · intro hall
          have hcu := hChU.mpr (hallU.mp hall)
          have hnoI : CheckedState.Indeterminate
              ∉ (children e id).map (getStateBase e pf fuel) := by
            intro hmem
            obtain ⟨c, hc, hI⟩ := hmapIff.mp hmem
            rw [hcu c hc] at hI
            cases hI
          have hcnt : ((children e id).map (getStateBase e pf fuel)).countP
              (fun s => s == CheckedState.Checked) = 0 := by
            apply hcnt_zero.mpr
            intro c hc h
            rw [hcu c hc] at h
            cases h
          rw [if_neg hnoI, if_pos (by omega)]

/-- C1: over an acyclic forest (rank hypothesis) and with search inactive,
the full-tree resolver used by getViewState is getStateBase, and for any node
(in particular any structural folder f) it returns Checked iff every leaf
descendant resolves Checked, Unchecked iff every leaf descendant resolves
Unchecked, and Indeterminate exactly otherwise.  Leaves resolve through
findNearestAssignment (`leafResolve`). -/
theorem C1_tristate_resolver (e : Engine) (rank : String → Nat) (pf fuel : Nat)
    (f : String)
    (hrank : ∀ pr ∈ e.childrenMap, ∀ ch ∈ pr.2, rank ch < rank pr.1)
    (hf : f ∈ e.folderSet) (hsa : e.searchActive = false)
    (hfuel : rank f < fuel) :
    getViewState e pf fuel f = getStateBase e pf fuel f
    ∧ (getStateBase e pf fuel f = CheckedState.Checked
        ↔ ∀ l ∈ leafDescendants e fuel f, leafResolve e pf l = CheckedState.Checked)
    ∧ (getStateBase e pf fuel f = CheckedState.Unchecked
        ↔ ∀ l ∈ leafDescendants e fuel f, leafResolve e pf l = CheckedState.Unchecked)
    ∧ (getStateBase e pf fuel f = CheckedState.Indeterminate
        ↔ ¬(∀ l ∈ leafDescendants e fuel f, leafResolve e pf l = CheckedState.Checked)
          ∧ ¬(∀ l ∈ leafDescendants e fuel f, leafResolve e pf l = CheckedState.Unchecked)) := by
  have hview : getViewState e pf fuel f = getStateBase e pf fuel f := by
    unfold getViewState
    rw [hsa]
    simp
  have hmain := getStateBase_char e rank pf hrank fuel f hfuel
  refine ⟨hview, hmain.1, hmain.2, ?_⟩
  constructor
  · intro hI
    constructor
    · intro h
      have hx := hmain.1.mpr h
      rw [hI] at hx
      cases hx
    · intro h
      have hx := hmain.2.mpr h
      rw [hI] at hx
      cases hx
  · rintro ⟨h1, h2⟩
    cases hst : getStateBase e pf fuel f with
    | Checked => exact absurd (hmain.1.mp hst) h1
    | Unchecked => exact absurd (hmain.2.mp hst) h2
    | Indeterminate => rfl

/-- Witness for C1 on the mixed sample engine: folder `p` has one checked and
one unchecked leaf, so it resolves Indeterminate. -/
theorem C1_witness :
    (∀ pr ∈ EtestMixed.childrenMap, ∀ ch ∈ pr.2, rankT ch < rankT pr.1)
    ∧ "p" ∈ EtestMixed.folderSet
    ∧ EtestMixed.searchActive = false
    ∧ rankT "p" < 5
    ∧ (getViewState EtestMixed 5 5 "p" = getStateBase EtestMixed 5 5 "p"
       ∧ (getStateBase EtestMixed 5 5 "p" = CheckedState.Checked
           ↔ ∀ l ∈ leafDescendants EtestMixed 5 "p",
               leafResolve EtestMixed 5 l = CheckedState.Checked)
       ∧ (getStateBase EtestMixed 5 5 "p" = CheckedState.Unchecked
           ↔ ∀ l ∈ leafDescendants EtestMixed 5 "p",
               leafResolve EtestMixed 5 l = CheckedState.Unchecked)
       ∧ (getStateBase EtestMixed 5 5 "p" = CheckedState.Indeterminate
           ↔ ¬(∀ l ∈ leafDescendants EtestMixed 5 "p",
                 leafResolve EtestMixed 5 l = CheckedState.Checked)
             ∧ ¬(∀ l ∈ leafDescendants EtestMixed 5 "p",
                 leafResolve EtestMixed 5 l = CheckedState.Unchecked))) :=
  ⟨by decide, by decide, by decide, by decide,
   C1_tristate_resolver EtestMixed rankT 5 5 "p" (by decide) (by decide) (by decide)
     (by decide)⟩

theorem ancestorWalk_eq_specAncestors (e : Engine)
    (hne : ∀ pr ∈ e.parentMap, ∀ p, pr.2 = some p → p ≠ "") :
    ∀ (fuel : Nat) (x : String), ancestorWalk e fuel x = specAncestors e fuel x := by
  intro fuel
  induction fuel with
  | zero => intro x; rfl
  | succ fuel ih =>
    intro x
    rw [ancestorWalk, specAncestors]
    cases hl : lookupS e.parentMap x with
    | none => rfl
    | some o =>
      cases o with
      | none => rfl
      | some p =>
        have hp : p ≠ "" := hne (x, some p) (lookupS_mem _ _ _ hl) p rfl
        show (if p = "" then [] else p :: ancestorWalk e fuel p)
          = p :: specAncestors e fuel p
        rw [if_neg hp, ih]

theorem mem_matches_foldl (g : String → List String) (L : List String)
    (acc : List String) (x : String) :
    x ∈ L.foldl (fun acc l => (g l).foldl addToSet acc) acc
      ↔ x ∈ acc ∨ ∃ l ∈ L, x ∈ g l := by
  induction L generalizing acc with
  | nil => simp
  | cons a t ih =>
    rw [List.foldl_cons, ih, mem_foldl_addToSet]
    simp only [List.mem_cons]
    constructor
    · rintro ((h | h) | ⟨l, hl, hx⟩)
      · exact Or.inl h
      · exact Or.inr ⟨a, Or.inl rfl, h⟩
      · exact Or.inr ⟨l, Or.inr hl, hx⟩
    · rintro (h | ⟨l, (rfl | hl), hx⟩)
      · exact Or.inl (Or.inl h)
      · exact Or.inl (Or.inr hx)
      · exact Or.inr ⟨l, hl, hx⟩

theorem nodup_matches_foldl (g : String → List String) (L : List String)
    (acc : List String) (h : acc.Nodup) :
    (L.foldl (fun acc l => (g l).foldl addToSet acc) acc).Nodup := by
  induction L generalizing acc with
  | nil => exact h
  | cons a t ih => exact ih _ (nodup_foldl_addToSet _ _ h)

theorem mem_searchVisibleSet (e : Engine) (fuel : Nat) (q : String) (x : String) :
    x ∈ searchVisibleSet e fuel q
      ↔ x = e.rootId
        ∨ ∃ l ∈ searchMatches e q, x = l ∨ x ∈ ancestorWalk e fuel l := by
  unfold searchVisibleSet
  rw [mem_addToSet, mem_matches_foldl]
  constructor
  · rintro ((h | ⟨l, hl, hx⟩) | h)
    · exact absurd h (List.not_mem_nil x)
    · exact Or.inr ⟨l, hl, List.mem_cons.mp hx⟩
    · exact Or.inl h
  · rintro (h | ⟨l, hl, hx⟩)
    · exact Or.inr h
    · exact Or.inl (Or.inr ⟨l, hl, List.mem_cons.mpr hx⟩)

theorem nodup_searchVisibleSet (e : Engine) (fuel : Nat) (q : String) :
    (searchVisibleSet e fuel q).Nodup :=
  nodup_addToSet _ _ (nodup_matches_foldl _ _ _ List.nodup_nil)

theorem lookupS_filterMap_restrict (e : Engine) (vis : List String) :
    ∀ (l : List String), l.Nodup → ∀ x,
      lookupS (l.filterMap (fun id =>
          if ((children e id).filter (fun c => decide (c ∈ vis))).isEmpty then none
          else some (id, (children e id).filter (fun c => decide (c ∈ vis))))) x
        = if x ∈ l ∧ ¬((children e x).filter (fun c => decide (c ∈ vis))).isEmpty
          then some ((children e x).filter (fun c => decide (c ∈ vis)))
          else none := by
  intro l
  induction l with
  | nil =>
    intro _ x
    simp [lookupS]
  | cons a t ih =>
    intro hnd x
    rw [List.nodup_cons] at hnd
    rw [List.filterMap_cons]
    by_cases hra : ((children e a).filter (fun c => decide (c ∈ vis))).isEmpty
    · rw [if_pos hra]
      rw [ih hnd.2 x]
      by_cases hxa : x = a
      · subst hxa
        rw [if_neg (by simp [hnd.1]), if_neg (by simp [hra])]
      · by_cases hxt : x ∈ t ∧ ¬((children e x).filter (fun c => decide (c ∈ vis))).isEmpty
        · rw [if_pos hxt, if_pos ⟨List.mem_cons_of_mem _ hxt.1, hxt.2⟩]
        · rw [if_neg hxt, if_neg ?_]
          intro hcon
          rcases List.mem_cons.mp hcon.1 with h | h
          · exact hxa h
          · exact hxt ⟨h, hcon.2⟩
    · rw [if_neg hra]
      by_cases hxa : x = a
      · subst hxa
        rw [lookupS, if_pos rfl, if_pos ⟨List.mem_cons_self _ _, hra⟩]
      · rw [lookupS, if_neg hxa, ih hnd.2 x]
        by_cases hxt : x ∈ t ∧ ¬((children e x).filter (fun c => decide (c ∈ vis))).isEmpty
        · rw [if_pos hxt, if_pos ⟨List.mem_cons_of_mem _ hxt.1, hxt.2⟩]
        · rw [if_neg hxt, if_neg ?_]
          intro hcon
          rcases List.mem_cons.mp hcon.1 with h | h
          · exact hxa h
          · exact hxt ⟨h, hcon.2⟩

/-- Amended C4: under the claim's preconditions (changed normalized query of
activating length) and the additional proviso that no node's recorded parent
is the empty-string ID, after setSearchQuery: search is active; VisibleSet is
exactly the matching structural leaves (pre-normalized label contains the
normalized query) plus every ancestor of a match up to root plus the root
itself; VisibleChildrenMap maps exactly the visible nodes with a nonempty
visibility restriction of their original children to that restriction (no
entry otherwise); and Expanded is exactly the root plus the visible structural
folders.  The proviso is forced by the counterexample: the ancestor walk
`while (p)` treats an empty-string parent ID as false and stops early. -/
theorem C4_search_visibility (e : Engine) (fuel : Nat) (query : String)
    (hq : normalize query ≠ e.normalizedQuery)
    (hact : e.minSearchChars ≤ ((normalize query).length : Int))
    (hne : ∀ pr ∈ e.parentMap, ∀ p, pr.2 = some p → p ≠ "") :
    (setSearchQuery e fuel query).searchActive = true
    ∧ (∀ x, x ∈ (setSearchQuery e fuel query).visibleSet
        ↔ x = e.rootId
          ∨ ∃ l ∈ searchMatches e (normalize query),
              x = l ∨ x ∈ specAncestors e fuel l)
    ∧ (∀ x, lookupS (setSearchQuery e fuel query).visibleChildrenMap x
        = if x ∈ (setSearchQuery e fuel query).visibleSet
             ∧ ¬((children e x).filter
                  (fun c => decide (c ∈ (setSearchQuery e fuel query).visibleSet))).isEmpty
          then some ((children e x).filter
                  (fun c => decide (c ∈ (setSearchQuery e fuel query).visibleSet)))
          else none)
    ∧ (∀ x, x ∈ (setSearchQuery e fuel query).expanded
        ↔ x = e.rootId
          ∨ (x ∈ (setSearchQuery e fuel query).visibleSet ∧ x ∈ e.folderSet)) := by
  have hdec : decide (e.minSearchChars ≤ (((normalize query).length : Nat) : Int)) = true :=
    decide_eq_true hact
  have hfields : (setSearchQuery e fuel query).visibleSet
        = searchVisibleSet e fuel (normalize query)
      ∧ (setSearchQuery e fuel query).visibleChildrenMap
        = searchVCM e (searchVisibleSet e fuel (normalize query))
      ∧ (setSearchQuery e fuel query).expanded
        = searchExpanded e (searchVisibleSet e fuel (normalize query))
      ∧ (setSearchQuery e fuel query).searchActive = true := by
    unfold setSearchQuery
    rw [if_neg hq]
    simp only []
    rw [if_pos hdec]
    exact ⟨rfl, rfl, rfl, hdec⟩
  refine ⟨hfields.2.2.2, ?_, ?_, ?_⟩
  · intro x
    rw [hfields.1, mem_searchVisibleSet]
    simp only [ancestorWalk_eq_specAncestors e hne]
  · intro x
    rw [hfields.2.1, hfields.1]
    exact lookupS_filterMap_restrict e _ _ (nodup_searchVisibleSet e fuel _) x
  · intro x
    rw [hfields.2.2.1, hfields.1]
    unfold searchExpanded
    rw [mem_foldl_guard_addToSet, mem_addToSet]
    simp only [List.not_mem_nil, false_or]

/-- Witness for the amended C4 on the sample engine with query "alp". -/
theorem C4_witness :
    normalize "alp" ≠ Etest.normalizedQuery
    ∧ Etest.minSearchChars ≤ ((normalize "alp").length : Int)
    ∧ (∀ pr ∈ Etest.parentMap, ∀ p, pr.2 = some p → p ≠ "")
    ∧ ((setSearchQuery Etest 6 "alp").searchActive = true
       ∧ (∀ x, x ∈ (setSearchQuery Etest 6 "alp").visibleSet
           ↔ x = Etest.rootId
             ∨ ∃ l ∈ searchMatches Etest (normalize "alp"),
                 x = l ∨ x ∈ specAncestors Etest 6 l)
       ∧ (∀ x, lookupS (setSearchQuery Etest 6 "alp").visibleChildrenMap x
           = if x ∈ (setSearchQuery Etest 6 "alp").visibleSet
                ∧ ¬((children Etest x).filter
                     (fun c => decide (c ∈ (setSearchQuery Etest 6 "alp").visibleSet))).isEmpty
             then some ((children Etest x).filter
                     (fun c => decide (c ∈ (setSearchQuery Etest 6 "alp").visibleSet)))
             else none)
       ∧ (∀ x, x ∈ (setSearchQuery Etest 6 "alp").expanded
           ↔ x = Etest.rootId
             ∨ (x ∈ (setSearchQuery Etest 6 "alp").visibleSet ∧ x ∈ Etest.folderSet))) :=
  ⟨by decide, by decide, by decide,
   C4_search_visibility Etest 6 "alp" (by decide) (by decide) (by decide)⟩

/-- Refutation of C4 as stated: in a valid forest containing a folder whose ID
is the empty string, a matching leaf is visible, its parent is the
empty-string folder, yet that ancestor is not in VisibleSet: the walk
`while (p)` stops on the falsy empty string (engine.ts:353). -/
theorem C4_counterexample :
    normalize "abc" ≠ EemptyId.normalizedQuery
    ∧ EemptyId.minSearchChars ≤ ((normalize "abc").length : Int)
    ∧ (setSearchQuery EemptyId 9 "abc").searchActive = true
    ∧ "a" ∈ (setSearchQuery EemptyId 9 "abc").visibleSet
    ∧ lookupS EemptyId.parentMap "a" = some (some "")
    ∧ "" ∉ (setSearchQuery EemptyId 9 "abc").visibleSet := by
  decide

theorem buildIdxAux_not_mem (rows : List VisibleItem) :
    ∀ (i : Nat) (m : List (String × Nat)) (x : String),
      x ∉ rows.map VisibleItem.id →
      lookupS (buildIdxAux rows i m) x = lookupS m x := by
  induction rows with
  | nil => intro i m x _; rfl
  | cons r rs ih =>
    intro i m x h
    rw [List.map_cons, List.mem_cons] at h
    push_neg at h
    rw [buildIdxAux, ih _ _ _ h.2, lookupS_setAssoc, if_neg h.1]

theorem buildIdxAux_get (rows : List VisibleItem) :
    (rows.map VisibleItem.id).Nodup →
    ∀ (i : Nat) (m : List (String × Nat)) (j : Fin rows.length),
      lookupS (buildIdxAux rows i m) ((rows.get j).id) = some (i + j.val) := by
  induction rows with
  | nil =>
    intro _ i m j
    exact absurd j.isLt (by simp)
  | cons r rs ih =>
    intro hnd i m j
    rw [List.map_cons, List.nodup_cons] at hnd
    rw [buildIdxAux]
    cases j using Fin.cases with
    | zero =>
      show lookupS (buildIdxAux rs (i + 1) (setAssoc m r.id i)) r.id = some (i + 0)
      rw [buildIdxAux_not_mem rs _ _ _ hnd.1, lookupS_setAssoc, if_pos rfl]
      simp
    | succ jj =>
      show lookupS (buildIdxAux rs (i + 1) (setAssoc m r.id i)) ((rs.get jj).id)
        = some (i + (jj.val + 1))
      rw [ih hnd.2 (i + 1) _ jj]
      congr 1
      omega

/-- C7: for every row of getVisibleItems, indexOf of its ID is its position in
that same array, and indexOf of any ID absent from the array (a hidden or
unknown ID) is -1.  The Nodup hypothesis (each ID appears in at most one row)
is what a valid forest guarantees; with duplicate parentage a duplicated row
would make "its position" ill-defined, since indexById keeps the last write. -/
theorem C7_indexOf_consistency (e : Engine) (fuel : Nat)
    (hnd : ((getVisibleItems e fuel).map VisibleItem.id).Nodup) :
    (∀ j : Fin (getVisibleItems e fuel).length,
       indexOf e fuel (((getVisibleItems e fuel).get j).id) = (j.val : Int))
    ∧ ∀ x, x ∉ (getVisibleItems e fuel).map VisibleItem.id →
        indexOf e fuel x = -1 := by
  constructor
  · intro j
    unfold indexOf
    rw [buildIdxAux_get (getVisibleItems e fuel) hnd 0 [] j]
    simp
  · intro x hx
    unfold indexOf
    rw [buildIdxAux_not_mem _ _ _ _ hx]
    rfl

/-- Witness for C7 at the sample engine: rows are `p` and `b`; their indexOf
values are their positions, and the hidden leaf `a` maps to -1. -/
theorem C7_witness :
    ((getVisibleItems Etest 6).map VisibleItem.id).Nodup
    ∧ ((∀ j : Fin (getVisibleItems Etest 6).length,
          indexOf Etest 6 (((getVisibleItems Etest 6).get j).id) = (j.val : Int))
       ∧ ∀ x, x ∉ (getVisibleItems Etest 6).map VisibleItem.id →
           indexOf Etest 6 x = -1) :=
  ⟨by decide, C7_indexOf_consistency Etest 6 (by decide)⟩

/-- Witness for C10: with only "beta" matching, folder `p` is visible-leafless
and toggling it only bumps versions and notifies. -/
theorem C10_witness :
    "p" ∈ EtestBeta.folderSet
    ∧ EtestBeta.searchActive = true
    ∧ visibleLeavesUnder EtestBeta 6 "p" = []
    ∧ toggle EtestBeta 6 "p" true =
        { EtestBeta with
          selectionVersion := EtestBeta.selectionVersion + 1,
          version := EtestBeta.version + 1,
          stateCache := [], stateCacheFiltered := [],
          flatCacheVersion := -1, allCheckedCacheVersion := -1,
          notifyCount := EtestBeta.notifyCount + 1 } :=
  ⟨by decide, by decide, by decide,
   C10_effective_leaf_folder_toggle EtestBeta 6 "p" true (by decide) (by decide) (by decide)⟩

end RVT
